import Mathlib

/-!
Verification of the AFEcrypt repository (ai_encryptor_plus): a shallow
embedding of the chunked AES-CTR engine (`chunked_ctr.py`), the whole-file
engine (`encryptor.py` / `decryptor.py`), the key vault (`key_vault.py`)
and the scheduler (`scheduler_plus.py`), together with theorems settling
the specification's claims about them.

Bytes are modelled as `Nat` (values below 256 in real runs; XOR is total on
`Nat` so no truncation is needed).  Library cryptographic primitives
(AES-CTR keystream, SHA-256, HMAC, PBKDF2, the AES-CBC core, AES-GCM) are
external to the repository and are therefore abstracted as the fields of a
`CryptoPrim` record; everything written in the repository itself is
translated directly.
-/

namespace AFEcrypt

abbrev Byte := Nat

/-- Big-endian byte encoding on `len` bytes, mirroring Python's
`n.to_bytes(len, "big")` (which requires `n < 256^len`). -/
def natToBytesBE (len : Nat) (n : Nat) : List Byte :=
  (List.range len).map (fun i => n / 256 ^ (len - 1 - i) % 256)

/-- Big-endian byte decoding, mirroring Python's `int.from_bytes(bs, "big")`. -/
def bytesToNatBE (bs : List Byte) : Nat :=
  bs.foldl (fun acc b => acc * 256 + b) 0

theorem natToBytesBE_length (len n : Nat) : (natToBytesBE len n).length = len := by
  simp [natToBytesBE]

theorem foldlBE_base (bs : List Byte) : ∀ a : Nat,
    bs.foldl (fun acc b => acc * 256 + b) a
      = a * 256 ^ bs.length + bs.foldl (fun acc b => acc * 256 + b) 0 := by
  induction bs with
  | nil => intro a; simp
  | cons c cs ih =>
    intro a
    simp only [List.foldl_cons, List.length_cons]
    rw [ih (a * 256 + c), ih (0 * 256 + c)]
    ring

theorem bytesToNatBE_cons (b : Byte) (bs : List Byte) :
    bytesToNatBE (b :: bs) = b * 256 ^ bs.length + bytesToNatBE bs := by
  simp only [bytesToNatBE, List.foldl_cons, Nat.zero_mul, Nat.zero_add]
  exact foldlBE_base bs b

theorem natToBytesBE_succ (len n : Nat) :
    natToBytesBE (len + 1) n = (n / 256 ^ len % 256) :: natToBytesBE len n := by
  simp only [natToBytesBE, List.range_succ_eq_map, List.map_cons, List.map_map]
  congr 1
  · apply List.map_congr_left
    intro i _
    simp only [Function.comp]
    congr 3
    omega

theorem bytesToNatBE_natToBytesBE (len n : Nat) :
    bytesToNatBE (natToBytesBE len n) = n % 256 ^ len := by
  induction len with
  | zero => simp [natToBytesBE, bytesToNatBE, Nat.mod_one]
  | succ k ih =>
    rw [natToBytesBE_succ, bytesToNatBE_cons, natToBytesBE_length, ih]
    rw [Nat.pow_succ, Nat.mod_mul]
    ring

theorem bytesToNatBE_natToBytesBE_of_lt {len n : Nat} (h : n < 256 ^ len) :
    bytesToNatBE (natToBytesBE len n) = n := by
  rw [bytesToNatBE_natToBytesBE, Nat.mod_eq_of_lt h]

/-! ### Sparse seek-write file model

`encrypt_file_chunked` and `decrypt_file_chunked` write their output with
`out.seek(pos); out.write(data)` on a file opened with `open(tmp, "wb")`.
An `SFile` models such a file: a size and a byte-valued content function
(a seek past the current end followed by a write leaves zero bytes in the
gap, which is the POSIX behaviour Python inherits). -/

structure SFile where
  size : Nat
  data : Nat → Byte

def SFile.empty : SFile := ⟨0, fun _ => 0⟩

/-- One `seek(pos)` followed by `write(d)`. -/
def SFile.write (f : SFile) (pos : Nat) (d : List Byte) : SFile :=
  { size := max f.size (pos + d.length)
    data := fun a => if pos ≤ a ∧ a < pos + d.length then d.getD (a - pos) 0 else f.data a }

/-- The committed byte content of the file. -/
def SFile.toBytes (f : SFile) : List Byte := (List.range f.size).map f.data

theorem SFile.ext' {f g : SFile} (h1 : f.size = g.size) (h2 : ∀ a, f.data a = g.data a) :
    f = g := by
  cases f; cases g
  simp only [SFile.mk.injEq]
  exact ⟨h1, funext h2⟩

/-- Two seek-writes into disjoint regions commute. -/
theorem SFile.write_comm (f : SFile) (p1 p2 : Nat) (d1 d2 : List Byte)
    (h : p1 + d1.length ≤ p2 ∨ p2 + d2.length ≤ p1) :
    (f.write p1 d1).write p2 d2 = (f.write p2 d2).write p1 d1 := by
  apply SFile.ext'
  · simp only [SFile.write]
    omega
  · intro a
    simp only [SFile.write]
    rcases h with h | h
    · by_cases h2 : p2 ≤ a ∧ a < p2 + d2.length <;>
      by_cases h1 : p1 ≤ a ∧ a < p1 + d1.length <;>
      simp [h1, h2] <;> omega
    · by_cases h2 : p2 ≤ a ∧ a < p2 + d2.length <;>
      by_cases h1 : p1 ≤ a ∧ a < p1 + d1.length <;>
      simp [h1, h2] <;> omega

theorem getD_range_map (l : List Byte) :
    (List.range l.length).map (fun i => l.getD i 0) = l := by
  induction l with
  | nil => simp
  | cons b bs ih =>
    simp only [List.length_cons, List.range_succ_eq_map, List.map_cons, List.getD_cons_zero,
      List.map_map]
    refine List.cons_eq_cons.mpr ⟨rfl, ?_⟩
    conv_rhs => rw [← ih]
    apply List.map_congr_left
    intro i _
    simp [Function.comp]

theorem SFile.write_data_lo (f : SFile) (p : Nat) (d : List Byte) (a : Nat)
    (h : ¬ (p ≤ a ∧ a < p + d.length)) : (f.write p d).data a = f.data a := by
  simp only [SFile.write]
  rw [if_neg h]

theorem SFile.write_data_in (f : SFile) (p : Nat) (d : List Byte) (a : Nat)
    (h1 : p ≤ a) (h2 : a < p + d.length) : (f.write p d).data a = d.getD (a - p) 0 := by
  simp only [SFile.write]
  rw [if_pos ⟨h1, h2⟩]

/-- Appending at the exact end of the file extends its byte content. -/
theorem SFile.toBytes_write_end (f : SFile) (d : List Byte) :
    (f.write f.size d).toBytes = f.toBytes ++ d := by
  have hsz : (f.write f.size d).size = f.size + d.length := by
    simp [SFile.write]
  simp only [SFile.toBytes, hsz]
  rw [List.range_add, List.map_append, List.map_map]
  congr 1
  · apply List.map_congr_left
    intro a ha
    exact SFile.write_data_lo f _ d a (by have := List.mem_range.mp ha; omega)
  · conv_rhs => rw [← getD_range_map d]
    apply List.map_congr_left
    intro a ha
    have hlt : a < d.length := List.mem_range.mp ha
    simp only [Function.comp]
    rw [SFile.write_data_in f _ d (f.size + a) (by omega) (by omega)]
    congr 1
    omega

theorem SFile.size_write (f : SFile) (p : Nat) (d : List Byte) :
    (f.write p d).size = max f.size (p + d.length) := rfl

theorem SFile.toBytes_length (f : SFile) : f.toBytes.length = f.size := by
  simp [SFile.toBytes]

/-! ### Scatter-writes on a fixed-stride grid

Both engines place the payload of index `i` at `base + i * stride`
(`write_pos = HEADER_SIZE + idx * (LEN_PREFIX_SIZE + chunk_size)` in
`encrypt_file_chunked`, `out.seek(idx * chunk_size)` in
`decrypt_file_chunked`), draining worker results in arbitrary
`as_completed` order. -/

def scatterWrites (f0 : SFile) (base stride : Nat) (items : List (Nat × List Byte)) : SFile :=
  items.foldl (fun f it => f.write (base + it.1 * stride) it.2) f0

theorem foldl_perm_of_comm {α : Type} (f : SFile → α → SFile) :
    ∀ {l1 l2 : List α}, l1.Perm l2 →
      (∀ a ∈ l1, ∀ b ∈ l1, ∀ g, f (f g a) b = f (f g b) a) →
      ∀ g, l1.foldl f g = l2.foldl f g := by
  intro l1 l2 p
  induction p with
  | nil => intro _ g; rfl
  | cons x _ ih =>
    intro h g
    simp only [List.foldl_cons]
    exact ih (fun a ha b hb =>
      h a (List.mem_cons_of_mem _ ha) b (List.mem_cons_of_mem _ hb)) (f g x)
  | swap x y l =>
    intro h g
    simp only [List.foldl_cons]
    rw [h y (by simp) x (by simp)]
  | trans p1 _ ih1 ih2 =>
    intro h g
    rw [ih1 h g]
    exact ih2 (fun a ha b hb => h a (p1.mem_iff.mpr ha) b (p1.mem_iff.mpr hb)) g

theorem slot_disjoint {u v stride lu : Nat} (h : u < v) (hl : lu ≤ stride) (base : Nat) :
    base + u * stride + lu ≤ base + v * stride := by
  have h1 : (u + 1) * stride ≤ v * stride := Nat.mul_le_mul_right stride h
  have h2 : (u + 1) * stride = u * stride + stride := by ring
  omega

/-- Scatter-writing payloads no longer than the stride, at pairwise distinct
indices, produces the same file in whatever order the results arrive. -/
theorem scatterWrites_perm (f0 : SFile) (base stride : Nat)
    {items1 items2 : List (Nat × List Byte)} (p : items1.Perm items2)
    (hlen : ∀ it ∈ items1, it.2.length ≤ stride)
    (hinj : ∀ a ∈ items1, ∀ b ∈ items1, a.1 = b.1 → a = b) :
    scatterWrites f0 base stride items1 = scatterWrites f0 base stride items2 := by
  apply foldl_perm_of_comm _ p _ f0
  intro a ha b hb g
  by_cases hab : a = b
  · rw [hab]
  · have hne : a.1 ≠ b.1 := fun hh => hab (hinj a ha b hb hh)
    apply SFile.write_comm
    rcases Nat.lt_or_ge a.1 b.1 with hlt | hge
    · exact Or.inl (slot_disjoint hlt (hlen a ha) base)
    · exact Or.inr (slot_disjoint (by omega) (hlen b hb) base)

/-- Draining the grid in index order is a pure append when every
non-terminal payload fills its slot exactly. -/
theorem scatterWrites_inorder (base stride : Nat) (p : Nat → List Byte) :
    ∀ (n k : Nat) (f0 : SFile), f0.size = base + k * stride →
      (∀ i, k ≤ i → i + 1 < k + n → (p i).length = stride) →
      (scatterWrites f0 base stride ((List.range' k n).map (fun i => (i, p i)))).toBytes
        = f0.toBytes ++ ((List.range' k n).map p).flatten := by
  intro n
  induction n with
  | zero => intro k f0 _ _; simp [scatterWrites]
  | succ m ih =>
    intro k f0 hsz hfull
    rw [List.range'_succ, List.map_cons, List.map_cons, List.flatten_cons]
    show (scatterWrites (f0.write (base + k * stride) (p k)) base stride
        ((List.range' (k + 1) m).map (fun i => (i, p i)))).toBytes = _
    rcases Nat.eq_zero_or_pos m with hm | hm
    · subst hm
      simp only [List.range'_zero, List.map_nil, scatterWrites, List.foldl_nil,
        List.flatten_nil, List.append_nil]
      rw [← hsz, SFile.toBytes_write_end]
    · have hk : (p k).length = stride := hfull k (Nat.le_refl k) (by omega)
      have h1 : (f0.write (base + k * stride) (p k)).size = base + (k + 1) * stride := by
        rw [SFile.size_write, ← hsz, hk]
        have : (k + 1) * stride = k * stride + stride := by ring
        omega
      rw [ih (k + 1) _ h1 (fun i hi1 hi2 => hfull i (by omega) (by omega))]
      rw [← hsz, SFile.toBytes_write_end, List.append_assoc]

/-! ### Abstract cryptographic primitives

The repository composes library primitives from the Python `cryptography`
package and `hashlib`; those are outside the source tree, so they are
abstracted here.  AES-CTR is length-preserving and XORs the data with a
keystream determined by (key, nonce); `ks key nonce i` is the i-th
keystream byte produced by `Cipher(algorithms.AES(key), modes.CTR(nonce))`
starting from a freshly initialized cipher object. -/

structure CryptoPrim where
  ks : List Byte → List Byte → Nat → Byte
  sha256 : List Byte → List Byte
  hmacSha256 : List Byte → List Byte → List Byte
  kdf : String → List Byte → List Byte
  aesCbcEncRaw : List Byte → List Byte → List Byte → List Byte
  aesCbcDecRaw : List Byte → List Byte → List Byte → List Byte
  gcmEnc : List Byte → List Byte → List Byte → List Byte
  gcmDec : List Byte → List Byte → List Byte → Option (List Byte)

/-- XOR a byte list against the keystream `s`, starting at stream offset `i`.
This is what one `enc.update(data)` call on a fresh CTR cipher does
(with `i = 0`). -/
def ctrXor (s : Nat → Byte) : Nat → List Byte → List Byte
  | _, [] => []
  | i, b :: bs => (b ^^^ s i) :: ctrXor s (i + 1) bs

/-- Models `_aes_ctr(key, nonce16, data)` from `encryptor.py` / `decryptor.py`, and
the cipher application inside the chunk workers of `chunked_ctr.py`:
a fresh CTR cipher, one update over the whole data. -/
def aes_ctr (C : CryptoPrim) (key nonce16 data : List Byte) : List Byte :=
  ctrXor (C.ks key nonce16) 0 data

theorem ctrXor_length (s : Nat → Byte) : ∀ (i : Nat) (l : List Byte),
    (ctrXor s i l).length = l.length := by
  intro i l
  induction l generalizing i with
  | nil => rfl
  | cons b bs ih => simp [ctrXor, ih]

theorem ctrXor_ctrXor (s : Nat → Byte) : ∀ (i : Nat) (l : List Byte),
    ctrXor s i (ctrXor s i l) = l := by
  intro i l
  induction l generalizing i with
  | nil => rfl
  | cons b bs ih => simp [ctrXor, ih, Nat.xor_cancel_right]

theorem ctrXor_getElem? (s : Nat → Byte) : ∀ (i : Nat) (l : List Byte) (j : Nat),
    (ctrXor s i l)[j]? = l[j]?.map (fun b => b ^^^ s (i + j)) := by
  intro i l
  induction l generalizing i with
  | nil => intro j; simp [ctrXor]
  | cons b bs ih =>
    intro j
    cases j with
    | zero => simp [ctrXor]
    | succ m =>
      simp only [ctrXor, List.getElem?_cons_succ, ih (i + 1) m]
      have harith : i + 1 + m = i + (m + 1) := by omega
      rw [harith]

/-! ### PKCS7 padding (block size 128 bits = 16 bytes)

`padding.PKCS7(128).padder()` appends `p = 16 - len % 16` copies of the
byte `p`; the unpadder requires the total length to be a positive multiple
of 16, the last byte `p` to lie in [1, 16], and the last `p` bytes to all
equal `p`, raising `ValueError` otherwise (modelled as `none`). -/

def pkcs7Pad (pt : List Byte) : List Byte :=
  pt ++ List.replicate (16 - pt.length % 16) (16 - pt.length % 16)

def pkcs7UnpadCore (bs : List Byte) (p : Byte) : Option (List Byte) :=
  if bs.length % 16 = 0 ∧ 1 ≤ p ∧ p ≤ 16 ∧ p ≤ bs.length ∧
      (∀ b ∈ bs.drop (bs.length - p), b = p) then
    some (bs.take (bs.length - p))
  else none

def pkcs7Unpad (bs : List Byte) : Option (List Byte) :=
  if bs = [] then none
  else pkcs7UnpadCore bs (bs.getD (bs.length - 1) 0)

theorem getD_append_right (l1 l2 : List Byte) (d : Byte) :
    ∀ n, l1.length ≤ n → (l1 ++ l2).getD n d = l2.getD (n - l1.length) d := by
  induction l1 with
  | nil => intro n _; simp
  | cons b bs ih =>
    intro n hn
    cases n with
    | zero => simp at hn
    | succ m =>
      simp only [List.cons_append, List.getD_cons_succ, List.length_cons]
      rw [ih m (by simpa using hn)]
      congr 1
      omega

theorem getD_replicate_self (a d : Byte) : ∀ (n i : Nat), i < n →
    (List.replicate n a).getD i d = a := by
  intro n
  induction n with
  | zero => intro i hi; omega
  | succ m ih =>
    intro i hi
    cases i with
    | zero => simp [List.replicate_succ]
    | succ j => simp only [List.replicate_succ, List.getD_cons_succ]; exact ih j (by omega)

theorem pkcs7_roundtrip_aux (pt : List Byte) (p : Nat) (hp : p = 16 - pt.length % 16) :
    pkcs7Unpad (pt ++ List.replicate p p) = some pt := by
  have hm : pt.length % 16 < 16 := Nat.mod_lt _ (by omega)
  have hp1 : 1 ≤ p := by omega
  have hp16 : p ≤ 16 := by omega
  have hlen : (pt ++ List.replicate p p).length = pt.length + p := by simp
  have hne : (pt ++ List.replicate p p) ≠ [] := by
    intro h
    have := congrArg List.length h
    rw [hlen] at this
    simp at this
    omega
  have hgetD : (pt ++ List.replicate p p).getD ((pt ++ List.replicate p p).length - 1) 0
      = p := by
    rw [hlen, getD_append_right _ _ _ _ (by omega)]
    exact getD_replicate_self p 0 p (pt.length + p - 1 - pt.length) (by omega)
  have hsub : (pt ++ List.replicate p p).length - p = pt.length := by rw [hlen]; omega
  have hmod : (pt.length + p) % 16 = 0 := by
    conv_lhs => rw [← Nat.mod_add_mod]
    have : pt.length % 16 + p = 16 := by omega
    rw [this]
  have hcond : (pt ++ List.replicate p p).length % 16 = 0 ∧ 1 ≤ p ∧ p ≤ 16 ∧
      p ≤ (pt ++ List.replicate p p).length ∧
      (∀ b ∈ (pt ++ List.replicate p p).drop ((pt ++ List.replicate p p).length - p),
        b = p) := by
    refine ⟨by rw [hlen]; exact hmod, hp1, hp16, by rw [hlen]; omega, ?_⟩
    intro b hb
    rw [hsub, List.drop_left] at hb
    exact List.eq_of_mem_replicate hb
  unfold pkcs7Unpad
  rw [if_neg hne, hgetD]
  unfold pkcs7UnpadCore
  rw [if_pos hcond, hsub, List.take_left]

theorem pkcs7Unpad_pkcs7Pad (pt : List Byte) : pkcs7Unpad (pkcs7Pad pt) = some pt :=
  pkcs7_roundtrip_aux pt _ rfl

/-! ### Key vault (`key_vault.py`)

The vault persists rows `(id, created_at, salt, iv, wrapped_key, mode)` in a
sqlite table keyed by `id`; `REPLACE INTO` performs upsert.  The database is
modelled as a list of records in which the most recent row for an id comes
first.  `secrets.token_bytes` draws (`salt`, `iv`) which are passed in as
arguments, and `created_at` is the caller-supplied clock value. -/

structure VaultRecord where
  id : String
  created_at : Nat
  salt : List Byte
  iv : List Byte
  wrapped_key : List Byte
  mode : String
deriving DecidableEq

abbrev VaultDB := List VaultRecord

inductive VaultErr
  | emptyMaster
  | notFound
  | badPadding
deriving DecidableEq

/-- Models `_aes_cbc_encrypt(k, iv, pt)`: PKCS7-pad then AES-CBC encrypt. -/
def aes_cbc_encrypt (C : CryptoPrim) (k iv pt : List Byte) : List Byte :=
  C.aesCbcEncRaw k iv (pkcs7Pad pt)

/-- Models `_aes_cbc_decrypt(k, iv, ct)`: AES-CBC decrypt then PKCS7-unpad
(raising `ValueError` on bad padding, modelled as `none`). -/
def aes_cbc_decrypt (C : CryptoPrim) (k iv ct : List Byte) : Option (List Byte) :=
  pkcs7Unpad (C.aesCbcDecRaw k iv ct)

/-- Models `REPLACE INTO keys(...)`: upsert by primary key `id`. -/
def vaultUpsert (db : VaultDB) (r : VaultRecord) : VaultDB :=
  r :: db.filter (fun x => x.id ≠ r.id)

def vaultFind (db : VaultDB) (key_id : String) : Option VaultRecord :=
  db.find? (fun x => x.id = key_id)

/-- Models `store_key(key_id, raw_key, mode, master_secret)`.  `salt`, `iv` and
`now` stand for the `secrets.token_bytes(16)` draws and `int(time.time())`. -/
def store_key (C : CryptoPrim) (db : VaultDB) (salt iv : List Byte) (now : Nat)
    (key_id : String) (raw_key : List Byte) (mode master_secret : String) :
    Except VaultErr VaultDB :=
  if master_secret = "" then .error .emptyMaster
  else
    .ok (vaultUpsert db
      { id := key_id, created_at := now, salt := salt, iv := iv,
        wrapped_key := aes_cbc_encrypt C (C.kdf master_secret salt) iv raw_key,
        mode := mode })

/-- Models `load_key(key_id, master_secret)` → `(raw, mode)`. -/
def load_key (C : CryptoPrim) (db : VaultDB) (key_id master_secret : String) :
    Except VaultErr (List Byte × String) :=
  if master_secret = "" then .error .emptyMaster
  else
    match vaultFind db key_id with
    | none => .error .notFound
    | some r =>
      match aes_cbc_decrypt C (C.kdf master_secret r.salt) r.iv r.wrapped_key with
      | none => .error .badPadding
      | some raw => .ok (raw, r.mode)

/-- Loading right after storing with the same master recovers the key,
provided the abstract AES-CBC core is a correct cipher pair. -/
theorem load_key_store_key (C : CryptoPrim) (db : VaultDB) (salt iv : List Byte)
    (now : Nat) (key_id : String) (raw_key : List Byte) (mode master : String)
    (hmaster : master ≠ "")
    (hinv : ∀ k iv d, C.aesCbcDecRaw k iv (C.aesCbcEncRaw k iv d) = d)
    {db2 : VaultDB} (hdb2 : store_key C db salt iv now key_id raw_key mode master = .ok db2) :
    load_key C db2 key_id master = .ok (raw_key, mode) := by
  unfold store_key at hdb2
  rw [if_neg hmaster] at hdb2
  cases hdb2
  unfold load_key
  rw [if_neg hmaster]
  have hfind : vaultFind (vaultUpsert db
      { id := key_id, created_at := now, salt := salt, iv := iv,
        wrapped_key := aes_cbc_encrypt C (C.kdf master salt) iv raw_key,
        mode := mode }) key_id = some
      { id := key_id, created_at := now, salt := salt, iv := iv,
        wrapped_key := aes_cbc_encrypt C (C.kdf master salt) iv raw_key,
        mode := mode } := by
    unfold vaultFind vaultUpsert
    rw [List.find?_cons_of_pos]
    simp
  rw [hfind]
  dsimp only [aes_cbc_decrypt, aes_cbc_encrypt]
  rw [hinv, pkcs7Unpad_pkcs7Pad]

/-! ### Chunked CTR engine (`chunked_ctr.py`) -/

def HEADER_MAGIC : List Byte := [67, 84, 82, 67, 72]

def HEADER_SIZE : Nat := 5 + 16 + 8

def LEN_PREFIX_SIZE : Nat := 8

/-- Models `_chunk_nonce(base_nonce, idx) = base_nonce[:8] + idx.to_bytes(8, "big")`. -/
def chunk_nonce (base_nonce : List Byte) (idx : Nat) : List Byte :=
  base_nonce.take 8 ++ natToBytesBE 8 idx

/-- the literal bytes of `b"auth_key"`. -/
def authKeyTag : List Byte := [97, 117, 116, 104, 95, 107, 101, 121]

/-- Models `_derive_auth_key(aes_key) = sha256(aes_key + b"auth_key")`. -/
def derive_auth_key (C : CryptoPrim) (aes_key : List Byte) : List Byte :=
  C.sha256 (aes_key ++ authKeyTag)

/-- Models `math.ceil(filesize / chunk_size) if chunk_size > 0 else 1`. -/
def chunkCountPy (filesize chunk_size : Nat) : Nat :=
  if 0 < chunk_size then (filesize + chunk_size - 1) / chunk_size else 1

/-- Models `length = min(chunk_size, filesize - offset)` at `offset = idx * chunk_size`. -/
def chunkLen (S F i : Nat) : Nat := min S (F - i * S)

/-- the worker's plaintext slice `mm[offset : offset + length]`. -/
def ptChunk (S : Nat) (pt : List Byte) (i : Nat) : List Byte :=
  (pt.drop (i * S)).take (chunkLen S pt.length i)

/-- Models `_worker_encrypt_chunk_mmap`: slice chunk `i` and CTR-encrypt it under
nonce `base_nonce[:8] + u64be(i)` with a fresh cipher. -/
def worker_encrypt_chunk (C : CryptoPrim) (key base_nonce : List Byte)
    (S : Nat) (pt : List Byte) (i : Nat) : List Byte :=
  aes_ctr C key (chunk_nonce base_nonce i) (ptChunk S pt i)

/-- Models `_worker_decrypt_chunk`: CTR-decrypt ciphertext chunk `i`. -/
def worker_decrypt_chunk (C : CryptoPrim) (key base_nonce : List Byte)
    (i : Nat) (ct : List Byte) : List Byte :=
  aes_ctr C key (chunk_nonce base_nonce i) ct

/-- one grid slot as written to disk: `len(ct).to_bytes(8, "big")` then `ct`. -/
def encSlot (ct : List Byte) : List Byte := natToBytesBE 8 ct.length ++ ct

/-- the 29-byte file header: MAGIC, BASE_NONCE, chunk size as u64be. -/
def encHeader (base_nonce : List Byte) (S : Nat) : List Byte :=
  HEADER_MAGIC ++ base_nonce ++ natToBytesBE 8 S

structure ChunkManifest where
  mode : String
  base_nonce : List Byte
  chunk_size : Nat
  chunk_count : Nat
  key_id : String
  chunk_hmacs : List (List Byte)
  version : Nat
deriving DecidableEq

/-- The ciphertext grid file assembled by the `as_completed` drain loop of
`encrypt_file_chunked` when chunk results arrive in `order` (in a real run,
some permutation of `range chunk_count`): the header is written first, then
each slot at `HEADER_SIZE + idx * (LEN_PREFIX_SIZE + chunk_size)`. -/
def encFile (C : CryptoPrim) (key base_nonce : List Byte) (S : Nat)
    (pt : List Byte) (order : List Nat) : SFile :=
  scatterWrites (SFile.empty.write 0 (encHeader base_nonce S)) HEADER_SIZE
    (LEN_PREFIX_SIZE + S)
    (order.map (fun i => (i, encSlot (worker_encrypt_chunk C key base_nonce S pt i))))

/-- The manifest written next to the ciphertext.  `chunk_hmacs[idx]` is
assigned by index as each result arrives, so the list is in index order
regardless of arrival order; entries are HMAC-SHA256 values (the hex
rendering of `hexdigest()` is an injective formatting left out of the
model). -/
def encManifest (C : CryptoPrim) (key base_nonce : List Byte) (S : Nat)
    (pt : List Byte) (key_id : String) : ChunkManifest :=
  { mode := "CTR_CHUNKED"
    base_nonce := base_nonce
    chunk_size := S
    chunk_count := chunkCountPy pt.length S
    key_id := key_id
    chunk_hmacs := (List.range (chunkCountPy pt.length S)).map
      (fun i => C.hmacSha256 (derive_auth_key C key)
        (worker_encrypt_chunk C key base_nonce S pt i))
    version := 1 }

/-- Models `encrypt_file_chunked`: commits the grid file (temp-then-rename), writes
the manifest (`write_manifest=True`), then runs
`try: store_key(key_id, key, "ctr", master_secret) except: pass` — a vault
failure is swallowed and leaves the database unchanged. -/
def encrypt_file_chunked (C : CryptoPrim) (db : VaultDB) (salt iv : List Byte)
    (now : Nat) (pt key base_nonce : List Byte) (key_id master_secret : String)
    (S : Nat) (order : List Nat) : SFile × ChunkManifest × VaultDB :=
  ( encFile C key base_nonce S pt order
  , encManifest C key base_nonce S pt key_id
  , match store_key C db salt iv now key_id key "ctr" master_secret with
    | .ok db2 => db2
    | .error _ => db )

inductive ChunkDecErr
  | manifestMissing
  | masterRequired
  | vault (e : VaultErr)
  | invalidHeader
deriving DecidableEq

/-- The sequential read loop of `decrypt_file_chunked`: `chunk_count` times,
read an 8-byte big-endian length then that many ciphertext bytes
(`if not len_bytes: break` stops at end of file). -/
def readChunks : Nat → List Byte → List (List Byte)
  | 0, _ => []
  | n + 1, bs =>
    if bs.isEmpty then []
    else
      (bs.drop 8).take (bytesToNatBE (bs.take 8)) ::
        readChunks n ((bs.drop 8).drop (bytesToNatBE (bs.take 8)))

/-- Models `decrypt_file_chunked`: requires the manifest, requires a master secret,
loads the key from the vault, checks the 5 magic bytes, reads the chunks
sequentially from offset 29, CTR-decrypts them in parallel, and
scatter-writes plaintext chunk `i` at offset `i * chunk_size` of the output,
draining results in `order`.  No HMAC is ever verified and the chunk size
recorded in the header is never compared with the manifest. -/
def decrypt_file_chunked (C : CryptoPrim) (db : VaultDB)
    (manifest : Option ChunkManifest) (encBytes : List Byte)
    (key_id : Option String) (master_secret : String) (order : List Nat) :
    Except ChunkDecErr (List Byte) :=
  match manifest with
  | none => .error .manifestMissing
  | some m =>
    if master_secret = "" then .error .masterRequired
    else
      match load_key C db (key_id.getD m.key_id) master_secret with
      | .error e => .error (.vault e)
      | .ok (key, _) =>
        if encBytes.take 5 ≠ HEADER_MAGIC then .error .invalidHeader
        else
          .ok (scatterWrites SFile.empty 0 m.chunk_size
            (order.map (fun i => (i, worker_decrypt_chunk C key m.base_nonce i
              ((readChunks m.chunk_count (encBytes.drop HEADER_SIZE)).getD i []))))).toBytes

/-! ### Arithmetic of the chunk grid -/

theorem chunkCountPy_of_pos (F S : Nat) (hS : 0 < S) :
    chunkCountPy F S = (F + S - 1) / S := by
  simp [chunkCountPy, hS]

theorem chunkCountPy_eq_pred_div (F S : Nat) (hS : 0 < S) (hF : 0 < F) :
    chunkCountPy F S = (F - 1) / S + 1 := by
  rw [chunkCountPy_of_pos F S hS]
  have h : F + S - 1 = (F - 1) + S := by omega
  rw [h, Nat.add_div_right _ hS]

theorem chunkCountPy_zero (S : Nat) (hS : 0 < S) : chunkCountPy 0 S = 0 := by
  rw [chunkCountPy_of_pos 0 S hS]
  exact Nat.div_eq_of_lt (by omega)

theorem chunkCountPy_succ (F S : Nat) (hS : 0 < S) (hF : 0 < F) :
    chunkCountPy F S = chunkCountPy (F - S) S + 1 := by
  rcases le_or_lt F S with h | h
  · have h0 : F - S = 0 := by omega
    rw [h0, chunkCountPy_zero S hS, chunkCountPy_eq_pred_div F S hS hF,
      Nat.div_eq_of_lt (by omega)]
  · rw [chunkCountPy_of_pos F S hS, chunkCountPy_of_pos (F - S) S hS]
    have heq : F + S - 1 = (F - S + S - 1) + S := by omega
    rw [heq, Nat.add_div_right _ hS]

theorem chunkCountPy_bounds (F S : Nat) (hS : 0 < S) (hF : 0 < F) :
    (chunkCountPy F S - 1) * S < F ∧ F ≤ chunkCountPy F S * S := by
  rw [chunkCountPy_eq_pred_div F S hS hF]
  obtain ⟨q, hq⟩ : ∃ q, (F - 1) / S = q := ⟨_, rfl⟩
  obtain ⟨m, hm⟩ : ∃ m, (F - 1) % S = m := ⟨_, rfl⟩
  have h1 : q * S ≤ F - 1 := by rw [← hq]; exact Nat.div_mul_le_self _ _
  have hdm : S * q + m = F - 1 := by rw [← hq, ← hm]; exact Nat.div_add_mod _ _
  have hmlt : m < S := by rw [← hm]; exact Nat.mod_lt _ hS
  rw [hq]
  have hcomm : S * q = q * S := Nat.mul_comm _ _
  have h4 : q + 1 - 1 = q := by omega
  have h3 : (q + 1) * S = q * S + S := by ring
  rw [h4, h3]
  omega

theorem chunkCountPy_pos (F S : Nat) (hS : 0 < S) (hF : 0 < F) :
    0 < chunkCountPy F S := by
  rw [chunkCountPy_eq_pred_div F S hS hF]
  exact Nat.succ_pos _

/-- every non-terminal chunk is exactly `S` bytes long. -/
theorem chunkLen_full (F S i : Nat) (hS : 0 < S) (hi : i + 1 < chunkCountPy F S) :
    chunkLen S F i = S := by
  have hF : 0 < F := by
    by_contra hc
    have h0 : F = 0 := by omega
    rw [h0, chunkCountPy_zero S hS] at hi
    omega
  have hb := (chunkCountPy_bounds F S hS hF).1
  have hm : (i + 1) * S ≤ (chunkCountPy F S - 1) * S :=
    Nat.mul_le_mul_right S (by omega)
  have hx : (i + 1) * S = i * S + S := by ring
  unfold chunkLen
  omega

theorem chunkLen_le (F S i : Nat) : chunkLen S F i ≤ S := Nat.min_le_left _ _

theorem ptChunk_length (S : Nat) (pt : List Byte) (i : Nat) :
    (ptChunk S pt i).length = chunkLen S pt.length i := by
  simp only [ptChunk, List.length_take, List.length_drop, chunkLen]
  omega

theorem worker_encrypt_chunk_length (C : CryptoPrim) (key base_nonce : List Byte)
    (S : Nat) (pt : List Byte) (i : Nat) :
    (worker_encrypt_chunk C key base_nonce S pt i).length = chunkLen S pt.length i := by
  unfold worker_encrypt_chunk aes_ctr
  rw [ctrXor_length, ptChunk_length]

/-- The list of plaintext chunks, in index order. -/
def ptChunksList (S : Nat) (pt : List Byte) : List (List Byte) :=
  (List.range (chunkCountPy pt.length S)).map (ptChunk S pt)

theorem ptChunksList_cons (S : Nat) (hS : 0 < S) (pt : List Byte) (hF : 0 < pt.length) :
    ptChunksList S pt = ptChunk S pt 0 :: ptChunksList S (pt.drop S) := by
  unfold ptChunksList
  have hlen : (pt.drop S).length = pt.length - S := by simp
  rw [chunkCountPy_succ pt.length S hS hF, List.range_succ_eq_map, List.map_cons,
    List.map_map, hlen]
  congr 1
  apply List.map_congr_left
  intro i _
  show ptChunk S pt (i + 1) = ptChunk S (pt.drop S) i
  unfold ptChunk chunkLen
  rw [List.drop_drop, hlen]
  have h1 : S + i * S = (i + 1) * S := by ring
  have h2 : (i + 1) * S = i * S + S := by ring
  rw [h1]
  have h3 : pt.length - (i + 1) * S = pt.length - S - i * S := by omega
  rw [h3]

theorem flatten_ptChunksList (S : Nat) (hS : 0 < S) :
    ∀ (n : Nat) (pt : List Byte), pt.length ≤ n → (ptChunksList S pt).flatten = pt := by
  intro n
  induction n with
  | zero =>
    intro pt hle
    have h0 : pt = [] := List.eq_nil_of_length_eq_zero (by omega)
    subst h0
    simp [ptChunksList, chunkCountPy_zero S hS]
  | succ m ih =>
    intro pt hle
    rcases Nat.eq_zero_or_pos pt.length with hF | hF
    · have h0 : pt = [] := List.eq_nil_of_length_eq_zero hF
      subst h0
      simp [ptChunksList, chunkCountPy_zero S hS]
    · rw [ptChunksList_cons S hS pt hF, List.flatten_cons,
        ih (pt.drop S) (by simp; omega)]
      have h0 : ptChunk S pt 0 = pt.take (min S pt.length) := by
        unfold ptChunk chunkLen
        simp
      rw [h0]
      rcases le_or_lt S pt.length with h | h
      · rw [Nat.min_eq_left h]
        exact List.take_append_drop S pt
      · rw [Nat.min_eq_right (by omega), List.take_length,
          List.drop_eq_nil_of_le (by omega), List.append_nil]

/-! ### Canonical layout of the committed grid file -/

/-- the full slot payload (length prefix + ciphertext) of chunk `i`. -/
def slotPayload (C : CryptoPrim) (key base_nonce : List Byte) (S : Nat)
    (pt : List Byte) (i : Nat) : List Byte :=
  encSlot (worker_encrypt_chunk C key base_nonce S pt i)

theorem slotPayload_length (C : CryptoPrim) (key base_nonce : List Byte) (S : Nat)
    (pt : List Byte) (i : Nat) :
    (slotPayload C key base_nonce S pt i).length = 8 + chunkLen S pt.length i := by
  simp [slotPayload, encSlot, natToBytesBE_length, worker_encrypt_chunk_length]

theorem encHeader_length (base_nonce : List Byte) (S : Nat) (hbn : base_nonce.length = 16) :
    (encHeader base_nonce S).length = 29 := by
  simp [encHeader, HEADER_MAGIC, natToBytesBE_length, hbn]

/-- Whatever order the worker results arrived in, the committed grid file is
the header followed by the slots packed in index order. -/
theorem encFile_toBytes (C : CryptoPrim) (key base_nonce : List Byte) (S : Nat)
    (pt : List Byte) (order : List Nat)
    (hbn : base_nonce.length = 16) (hS : 0 < S)
    (hperm : order.Perm (List.range (chunkCountPy pt.length S))) :
    (encFile C key base_nonce S pt order).toBytes
      = encHeader base_nonce S ++
        ((List.range (chunkCountPy pt.length S)).map
          (slotPayload C key base_nonce S pt)).flatten := by
  unfold encFile
  rw [scatterWrites_perm _ _ _
    (hperm.map (fun i => (i, encSlot (worker_encrypt_chunk C key base_nonce S pt i))))
    ?hlen ?hinj]
  case hlen =>
    intro it hit
    obtain ⟨i, _, rfl⟩ := List.mem_map.mp hit
    show (slotPayload C key base_nonce S pt i).length ≤ LEN_PREFIX_SIZE + S
    rw [slotPayload_length]
    have := chunkLen_le pt.length S i
    unfold LEN_PREFIX_SIZE
    omega
  case hinj =>
    intro a ha b hb hab
    obtain ⟨i, _, rfl⟩ := List.mem_map.mp ha
    obtain ⟨j, _, rfl⟩ := List.mem_map.mp hb
    simp only at hab
    rw [hab]
  · rw [List.range_eq_range']
    rw [scatterWrites_inorder HEADER_SIZE (LEN_PREFIX_SIZE + S)
      (fun i => encSlot (worker_encrypt_chunk C key base_nonce S pt i))
      (chunkCountPy pt.length S) 0 _ ?hsz ?hfull]
    case hsz =>
      rw [SFile.size_write]
      show max SFile.empty.size (0 + (encHeader base_nonce S).length) = _
      rw [encHeader_length base_nonce S hbn]
      simp [SFile.empty, HEADER_SIZE]
    case hfull =>
      intro i _ hi2
      show (slotPayload C key base_nonce S pt i).length = LEN_PREFIX_SIZE + S
      rw [slotPayload_length, chunkLen_full pt.length S i hS (by omega)]
      simp [LEN_PREFIX_SIZE]
    · have hempty : SFile.empty.size = 0 := rfl
      have h0 : (SFile.empty.write 0 (encHeader base_nonce S)).toBytes
          = encHeader base_nonce S := by
        conv_lhs => rw [show (0 : Nat) = SFile.empty.size from rfl]
        rw [SFile.toBytes_write_end]
        have : SFile.empty.toBytes = [] := by simp [SFile.toBytes, SFile.empty]
        rw [this, List.nil_append]
      rw [h0]
      rfl

/-- Reading back `cts.length` length-prefixed records from the packed slots
recovers exactly the ciphertext chunks. -/
theorem readChunks_flatten (cts : List (List Byte)) (h : ∀ ct ∈ cts, ct.length < 2 ^ 64) :
    readChunks cts.length ((cts.map encSlot).flatten) = cts := by
  induction cts with
  | nil => rfl
  | cons ct rest ih =>
    have h8 : (natToBytesBE 8 ct.length).length = 8 := natToBytesBE_length _ _
    have hbs : ((ct :: rest).map encSlot).flatten
        = natToBytesBE 8 ct.length ++ (ct ++ ((rest.map encSlot).flatten)) := by
      simp [encSlot, List.append_assoc]
    show readChunks (rest.length + 1) _ = _
    rw [hbs]
    unfold readChunks
    rw [if_neg ?hne]
    case hne =>
      intro hemp
      have := List.isEmpty_iff.mp hemp
      have hl := congrArg List.length this
      simp [h8] at hl
    have htake : (natToBytesBE 8 ct.length ++ (ct ++ (rest.map encSlot).flatten)).take 8
        = natToBytesBE 8 ct.length := by
      conv_lhs => rw [show (8 : Nat) = (natToBytesBE 8 ct.length).length from h8.symm]
      exact List.take_left _ _
    have hdrop : (natToBytesBE 8 ct.length ++ (ct ++ (rest.map encSlot).flatten)).drop 8
        = ct ++ (rest.map encSlot).flatten := by
      conv_lhs => rw [show (8 : Nat) = (natToBytesBE 8 ct.length).length from h8.symm]
      exact List.drop_left _ _
    have hval : bytesToNatBE ((natToBytesBE 8 ct.length
        ++ (ct ++ (rest.map encSlot).flatten)).take 8) = ct.length := by
      rw [htake]
      apply bytesToNatBE_natToBytesBE_of_lt
      have hlt := h ct (List.mem_cons_self _ _)
      have h256 : (256 : Nat) ^ 8 = 2 ^ 64 := by norm_num
      omega
    rw [hval, hdrop, List.take_left, List.drop_left]
    rw [ih (fun c hc => h c (List.mem_cons_of_mem _ hc))]

theorem getD_map_range (f : Nat → List Byte) (n i : Nat) (h : i < n) (d : List Byte) :
    ((List.range n).map f).getD i d = f i := by
  rw [List.getD_eq_getElem?_getD, List.getElem?_map, List.getElem?_range h]
  rfl

/-- C1: chunked round-trip.  Decrypting the committed ciphertext file and
manifest produced by `encrypt_file_chunked` (worker results arriving in any
order on both sides) with the same master secret recovers the source bytes
exactly.  `hinv` states that the abstract AES-CBC core used by the vault is
a correct cipher pair, and `hS64` reflects that `to_bytes(8, "big")`
requires values below `2^64`. -/
theorem chunked_ctr_roundtrip
    (C : CryptoPrim) (db : VaultDB) (salt iv : List Byte) (now : Nat)
    (pt key base_nonce : List Byte) (key_id master : String) (S : Nat)
    (encOrder decOrder : List Nat)
    (hS : 0 < S) (hS64 : S < 2 ^ 64) (hbn : base_nonce.length = 16)
    (hmaster : master ≠ "")
    (hinv : ∀ k i d, C.aesCbcDecRaw k i (C.aesCbcEncRaw k i d) = d)
    (hpe : encOrder.Perm (List.range (chunkCountPy pt.length S)))
    (hpd : decOrder.Perm (List.range (chunkCountPy pt.length S))) :
    decrypt_file_chunked C
        (encrypt_file_chunked C db salt iv now pt key base_nonce key_id master S encOrder).2.2
        (some (encrypt_file_chunked C db salt iv now pt key base_nonce key_id master S encOrder).2.1)
        (encrypt_file_chunked C db salt iv now pt key base_nonce key_id master S encOrder).1.toBytes
        none master decOrder
      = .ok pt := by
  obtain ⟨db2, hstore⟩ : ∃ db2, store_key C db salt iv now key_id key "ctr" master
      = .ok db2 := by
    unfold store_key
    rw [if_neg hmaster]
    exact ⟨_, rfl⟩
  have hload := load_key_store_key C db salt iv now key_id key "ctr" master hmaster hinv hstore
  unfold encrypt_file_chunked decrypt_file_chunked
  rw [hstore]
  dsimp only [encManifest]
  rw [if_neg hmaster]
  show (match load_key C _ ((none : Option String).getD key_id) master with
    | .error e => Except.error (ChunkDecErr.vault e)
    | .ok (key2, _) => _) = _
  rw [show ((none : Option String).getD key_id) = key_id from rfl, hload]
  dsimp only
  have hbytes := encFile_toBytes C key base_nonce S pt encOrder hbn hS hpe
  rw [hbytes]
  have hmagic : (encHeader base_nonce S ++
      ((List.range (chunkCountPy pt.length S)).map
        (slotPayload C key base_nonce S pt)).flatten).take 5 = HEADER_MAGIC := by
    unfold encHeader
    rw [List.append_assoc, List.append_assoc]
    conv_lhs => rw [show (5 : Nat) = HEADER_MAGIC.length from rfl]
    exact List.take_left _ _
  rw [if_neg (by rw [hmagic]; exact fun h => h rfl)]
  have hdrop : (encHeader base_nonce S ++
      ((List.range (chunkCountPy pt.length S)).map
        (slotPayload C key base_nonce S pt)).flatten).drop HEADER_SIZE
      = ((List.range (chunkCountPy pt.length S)).map
          (slotPayload C key base_nonce S pt)).flatten := by
    conv_lhs =>
      rw [show HEADER_SIZE = (encHeader base_nonce S).length from
        (encHeader_length base_nonce S hbn).symm]
    exact List.drop_left _ _
  rw [hdrop]
  have hslots : (List.range (chunkCountPy pt.length S)).map (slotPayload C key base_nonce S pt)
      = ((List.range (chunkCountPy pt.length S)).map
          (worker_encrypt_chunk C key base_nonce S pt)).map encSlot := by
    rw [List.map_map]
    apply List.map_congr_left
    intro i _
    rfl
  rw [hslots]
  have hbound : ∀ ct ∈ (List.range (chunkCountPy pt.length S)).map
      (worker_encrypt_chunk C key base_nonce S pt), ct.length < 2 ^ 64 := by
    intro ct hct
    obtain ⟨i, _, rfl⟩ := List.mem_map.mp hct
    rw [worker_encrypt_chunk_length]
    have := chunkLen_le pt.length S i
    omega
  have hread := readChunks_flatten _ hbound
  rw [show ((List.range (chunkCountPy pt.length S)).map
      (worker_encrypt_chunk C key base_nonce S pt)).length
      = chunkCountPy pt.length S from by simp] at hread
  rw [hread]
  have hitems : decOrder.map (fun i => (i, worker_decrypt_chunk C key base_nonce i
      (((List.range (chunkCountPy pt.length S)).map
        (worker_encrypt_chunk C key base_nonce S pt)).getD i [])))
      = decOrder.map (fun i => (i, ptChunk S pt i)) := by
    apply List.map_congr_left
    intro i hi
    have hiN : i < chunkCountPy pt.length S :=
      List.mem_range.mp (hpd.mem_iff.mp hi)
    rw [getD_map_range _ _ _ hiN]
    unfold worker_decrypt_chunk worker_encrypt_chunk aes_ctr
    rw [ctrXor_ctrXor]
  rw [hitems]
  rw [scatterWrites_perm _ _ _ (hpd.map (fun i => (i, ptChunk S pt i))) ?hlen2 ?hinj2]
  case hlen2 =>
    intro it hit
    obtain ⟨i, _, rfl⟩ := List.mem_map.mp hit
    show (ptChunk S pt i).length ≤ S
    rw [ptChunk_length]
    exact chunkLen_le pt.length S i
  case hinj2 =>
    intro a ha b hb hab
    obtain ⟨i, _, rfl⟩ := List.mem_map.mp ha
    obtain ⟨j, _, rfl⟩ := List.mem_map.mp hb
    simp only at hab
    rw [hab]
  · rw [List.range_eq_range']
    rw [scatterWrites_inorder 0 S (ptChunk S pt) (chunkCountPy pt.length S) 0
      SFile.empty (by simp [SFile.empty]) ?hfull2]
    case hfull2 =>
      intro i _ hi2
      rw [ptChunk_length]
      exact chunkLen_full pt.length S i hS (by omega)
    have hempty : SFile.empty.toBytes = [] := by simp [SFile.toBytes, SFile.empty]
    rw [hempty, List.nil_append, ← List.range_eq_range']
    rw [show (List.range (chunkCountPy pt.length S)).map (ptChunk S pt)
      = ptChunksList S pt from rfl]
    rw [flatten_ptChunksList S hS pt.length pt (Nat.le_refl _)]

/-- A concrete instantiation of the abstract primitives, used to evaluate
the model at concrete inputs. -/
def demoPrim : CryptoPrim where
  ks := fun _ _ i => (i + 1) % 256
  sha256 := fun l => l.take 32
  hmacSha256 := fun k m => k ++ m
  kdf := fun m s => m.length :: s
  aesCbcEncRaw := fun _ _ d => d
  aesCbcDecRaw := fun _ _ d => d
  gcmEnc := fun _ _ d => d
  gcmDec := fun _ _ d => some d

/-- Witness for C1: a 3-byte file, chunk size 2, out-of-order encryption
drain `[1, 0]`, decrypts back to the original bytes. -/
theorem chunked_ctr_roundtrip_witness :
    ((0:Nat) < 2 ∧ (2:Nat) < 2 ^ 64 ∧ (List.replicate 16 (0:Nat)).length = 16 ∧
      "pw" ≠ "" ∧
      [1, 0].Perm (List.range (chunkCountPy ([10, 20, 30] : List Byte).length 2)) ∧
      [0, 1].Perm (List.range (chunkCountPy ([10, 20, 30] : List Byte).length 2))) ∧
    decrypt_file_chunked demoPrim
        (encrypt_file_chunked demoPrim [] [1] [2] 7 [10, 20, 30] [9]
          (List.replicate 16 0) "kid" "pw" 2 [1, 0]).2.2
        (some (encrypt_file_chunked demoPrim [] [1] [2] 7 [10, 20, 30] [9]
          (List.replicate 16 0) "kid" "pw" 2 [1, 0]).2.1)
        (encrypt_file_chunked demoPrim [] [1] [2] 7 [10, 20, 30] [9]
          (List.replicate 16 0) "kid" "pw" 2 [1, 0]).1.toBytes
        none "pw" [0, 1]
      = .ok [10, 20, 30] :=
  ⟨⟨by decide, by decide, by decide, by decide, by decide, by decide⟩,
    chunked_ctr_roundtrip demoPrim [] [1] [2] 7 [10, 20, 30] [9]
      (List.replicate 16 0) "kid" "pw" 2 [1, 0] [0, 1]
      (by decide) (by decide) (by decide) (by decide) (fun _ _ _ => rfl)
      (by decide) (by decide)⟩

/-! ### Grid offsets and total length (claim C7) -/

theorem drop_append_plus (l1 l2 : List Byte) (k : Nat) :
    (l1 ++ l2).drop (l1.length + k) = l2.drop k := by
  induction l1 with
  | nil => simp
  | cons b bs ih =>
    have h : (b :: bs).length + k = (bs.length + k) + 1 := by
      simp only [List.length_cons]
      omega
    rw [h, List.cons_append, List.drop_succ_cons, ih]

theorem take_eq_of_length_append (l1 l2 : List Byte) (n : Nat) (h : l1.length = n) :
    (l1 ++ l2).take n = l1 := by
  subst h
  exact List.take_left _ _

theorem drop_eq_of_length_append (l1 l2 : List Byte) (n : Nat) (h : l1.length = n) :
    (l1 ++ l2).drop n = l2 := by
  subst h
  exact List.drop_left _ _

theorem flatten_drop_slots (p : Nat → List Byte) (stride : Nat) (N : Nat)
    (hfull : ∀ j, j + 1 < N → (p j).length = stride) :
    ∀ i, i < N →
      (((List.range N).map p).flatten).drop (i * stride)
        = ((List.range' i (N - i)).map p).flatten := by
  intro i
  induction i with
  | zero =>
    intro _
    simp [List.range_eq_range']
  | succ m ih =>
    intro hm
    have h1 : (m + 1) * stride = m * stride + stride := by ring
    rw [h1, ← List.drop_drop, ih (by omega)]
    have h2 : N - m = (N - m - 1) + 1 := by omega
    rw [h2, List.range'_succ, List.map_cons, List.flatten_cons]
    rw [show stride = (p m).length from (hfull m hm).symm, List.drop_left]
    rw [show N - (m + 1) = N - m - 1 from by omega]

theorem flatten_length_const (p : Nat → List Byte) (c : Nat) :
    ∀ n, (∀ i, i < n → (p i).length = c) →
      (((List.range n).map p).flatten).length = n * c := by
  intro n
  induction n with
  | zero => intro _; simp
  | succ m ih =>
    intro h
    rw [List.range_succ, List.map_append, List.flatten_append]
    simp only [List.length_append, ih (fun i hi => h i (by omega))]
    simp [h m (by omega), Nat.succ_mul]

/-- C7: in every committed chunked output, whatever order the worker results
arrived in, the 8-byte big-endian length prefix of chunk `i` sits at byte
offset `29 + i * (8 + S)`, and the committed file's total length is
`29 + (N - 1) * (8 + S) + 8 + length of the terminal chunk`. -/
theorem chunked_grid_layout
    (C : CryptoPrim) (key base_nonce : List Byte) (S : Nat) (pt : List Byte)
    (order : List Nat) (i : Nat)
    (hbn : base_nonce.length = 16) (hS : 0 < S) (hF : 0 < pt.length)
    (hperm : order.Perm (List.range (chunkCountPy pt.length S)))
    (hi : i < chunkCountPy pt.length S) :
    (((encFile C key base_nonce S pt order).toBytes.drop (29 + i * (8 + S))).take 8
      = natToBytesBE 8 (chunkLen S pt.length i))
    ∧ (encFile C key base_nonce S pt order).toBytes.length
      = 29 + (chunkCountPy pt.length S - 1) * (8 + S) + 8
        + chunkLen S pt.length (chunkCountPy pt.length S - 1) := by
  have hN1 : 0 < chunkCountPy pt.length S := chunkCountPy_pos pt.length S hS hF
  rw [encFile_toBytes C key base_nonce S pt order hbn hS hperm]
  have hfull : ∀ j, j + 1 < chunkCountPy pt.length S →
      (slotPayload C key base_nonce S pt j).length = 8 + S := by
    intro j hj
    rw [slotPayload_length, chunkLen_full pt.length S j hS hj]
  constructor
  · have h29 : 29 + i * (8 + S) = (encHeader base_nonce S).length + i * (8 + S) := by
      rw [encHeader_length base_nonce S hbn]
    rw [h29, drop_append_plus,
      flatten_drop_slots (slotPayload C key base_nonce S pt) (8 + S)
        (chunkCountPy pt.length S) hfull i hi]
    have h2 : chunkCountPy pt.length S - i = (chunkCountPy pt.length S - i - 1) + 1 := by
      omega
    rw [h2, List.range'_succ, List.map_cons, List.flatten_cons]
    unfold slotPayload encSlot
    rw [List.append_assoc,
      take_eq_of_length_append _ _ 8 (natToBytesBE_length _ _),
      worker_encrypt_chunk_length]
  · rw [List.length_append, encHeader_length base_nonce S hbn]
    rw [show chunkCountPy pt.length S = (chunkCountPy pt.length S - 1) + 1 from by omega,
      List.range_succ, List.map_append, List.flatten_append, List.length_append]
    rw [flatten_length_const (slotPayload C key base_nonce S pt) (8 + S) _
      (fun j hj => hfull j (by omega))]
    simp only [List.map_cons, List.map_nil, List.flatten_cons, List.flatten_nil,
      List.append_nil]
    rw [slotPayload_length]
    rw [show (chunkCountPy pt.length S - 1) + 1 - 1 = chunkCountPy pt.length S - 1
      from by omega]
    omega

/-- Witness for C7 at the same concrete input as the C1 witness: N = 2 chunks
of nominal size 2 from a 3-byte file, drained out of order. -/
theorem chunked_grid_layout_witness :
    ((List.replicate 16 (0:Nat)).length = 16 ∧ (0:Nat) < 2 ∧
      (0:Nat) < ([10, 20, 30] : List Byte).length ∧
      [1, 0].Perm (List.range (chunkCountPy ([10, 20, 30] : List Byte).length 2)) ∧
      1 < chunkCountPy ([10, 20, 30] : List Byte).length 2) ∧
    ((((encFile demoPrim [9] (List.replicate 16 0) 2 [10, 20, 30] [1, 0]).toBytes.drop
        (29 + 1 * (8 + 2))).take 8 = natToBytesBE 8 (chunkLen 2 3 1))
    ∧ (encFile demoPrim [9] (List.replicate 16 0) 2 [10, 20, 30] [1, 0]).toBytes.length
      = 29 + (chunkCountPy 3 2 - 1) * (8 + 2) + 8 + chunkLen 2 3 (chunkCountPy 3 2 - 1)) :=
  ⟨⟨by decide, by decide, by decide, by decide, by decide⟩,
    chunked_grid_layout demoPrim [9] (List.replicate 16 0) 2 [10, 20, 30] [1, 0] 1
      (by decide) (by decide) (by decide) (by decide) (by decide)⟩

/-! ### Concrete evaluations of `decrypt_file_chunked` (claims C2, C5) -/

/-- a concrete honest encryption run: 3-byte file [10, 20, 30], key [9],
chunk size 2, master "pw". -/
def demoEnc : SFile × ChunkManifest × VaultDB :=
  encrypt_file_chunked demoPrim [] [1] [2] 7 [10, 20, 30] [9]
    (List.replicate 16 0) "kid" "pw" 2 [0, 1]

/-- the committed ciphertext with the low bit of the first byte of
ciphertext chunk 0 flipped (file offset 29 + 8 = 37). -/
def demoTampered : List Byte :=
  demoEnc.1.toBytes.set 37 (demoEnc.1.toBytes.getD 37 0 ^^^ 1)

/-- C2 at the failing input: `decrypt_file_chunked` never verifies the
manifest's `chunk_hmacs`; a bit-flipped ciphertext chunk decrypts without
any integrity error, writing plaintext [11, 20, 30] that differs from the
original [10, 20, 30]. -/
theorem chunked_decrypt_ignores_tamper :
    decrypt_file_chunked demoPrim demoEnc.2.2 (some demoEnc.2.1) demoTampered
        none "pw" [0, 1] = .ok [11, 20, 30]
    ∧ [11, 20, 30] ≠ ([10, 20, 30] : List Byte) := by
  constructor
  · rfl
  · decide

/-- a grid file whose header records chunk size 16 while the slots are laid
out with chunk size 2; its sidecar manifest records chunk size 2 and an
empty (hence wrong) `chunk_hmacs` list. -/
def demoMismatchBytes : List Byte :=
  encHeader (List.replicate 16 0) 16 ++ encSlot [11, 22] ++ encSlot [31]

def demoMismatchManifest : ChunkManifest :=
  { mode := "CTR_CHUNKED", base_nonce := List.replicate 16 0, chunk_size := 2,
    chunk_count := 2, key_id := "kid", chunk_hmacs := [], version := 1 }

/-- C5 at the failing input: a file whose header chunk size (16) disagrees
with the manifest's (2), carrying a manifest with no HMAC entries at all,
still decrypts successfully — neither disagreement nor HMAC mismatch is
detected, and the output replaces the destination. -/
theorem chunked_decrypt_ignores_header_chunk_size :
    decrypt_file_chunked demoPrim demoEnc.2.2 (some demoMismatchManifest)
        demoMismatchBytes none "pw" [0, 1] = .ok [10, 20, 30] := by
  rfl

/-! ### Chunk count of the manifest (claim C6) -/

/-- C6 counterexample: for the empty source file and chunk size 8 the code
computes `chunk_count = ceil(0/8) = 0`, not 1, and the manifest carries no
HMAC entry. -/
theorem chunked_empty_file_chunk_count :
    (encManifest demoPrim [9] (List.replicate 16 0) 8 [] "kid").chunk_count = 0
    ∧ (encManifest demoPrim [9] (List.replicate 16 0) 8 [] "kid").chunk_count ≠ 1
    ∧ (encManifest demoPrim [9] (List.replicate 16 0) 8 [] "kid").chunk_hmacs = [] := by
  refine ⟨rfl, ?_, rfl⟩
  decide

/-- C6 amended: for chunk size S > 0 the manifest's `chunk_count` is
`⌈F/S⌉`, which is 0 (not 1) for an empty file, and `chunk_hmacs` always has
exactly `chunk_count` entries. -/
theorem chunked_chunk_count_spec (C : CryptoPrim) (key base_nonce : List Byte)
    (S : Nat) (pt : List Byte) (key_id : String) (hS : 0 < S) :
    (encManifest C key base_nonce S pt key_id).chunk_count = (pt.length + S - 1) / S
    ∧ (encManifest C key base_nonce S pt key_id).chunk_hmacs.length
        = (encManifest C key base_nonce S pt key_id).chunk_count
    ∧ (pt.length = 0 → (encManifest C key base_nonce S pt key_id).chunk_count = 0) := by
  refine ⟨chunkCountPy_of_pos _ _ hS, by simp [encManifest], ?_⟩
  intro h0
  show chunkCountPy pt.length S = 0
  rw [h0]
  exact chunkCountPy_zero S hS

/-- Witness for the amended C6 at F = 0, S = 8. -/
theorem chunked_chunk_count_spec_witness :
    ((0:Nat) < 8) ∧
    ((encManifest demoPrim [9] (List.replicate 16 0) 8 [] "kid").chunk_count
        = (([] : List Byte).length + 8 - 1) / 8
    ∧ (encManifest demoPrim [9] (List.replicate 16 0) 8 [] "kid").chunk_hmacs.length
        = (encManifest demoPrim [9] (List.replicate 16 0) 8 [] "kid").chunk_count
    ∧ (([] : List Byte).length = 0 →
        (encManifest demoPrim [9] (List.replicate 16 0) 8 [] "kid").chunk_count = 0)) :=
  ⟨by decide, chunked_chunk_count_spec demoPrim [9] (List.replicate 16 0) 8 [] "kid"
    (by decide)⟩

/-! ### Order of externally visible effects in `encrypt_file_chunked` (claim C8) -/

inductive EncEvent
  | chunkWrite (idx : Nat)
  | commitCiphertext
  | writeManifest
  | vaultStore (ok : Bool)
deriving DecidableEq

/-- The order of externally visible effects of `encrypt_file_chunked`:
scatter-writes to the temp file in arrival `order`, then `os.replace`
(commit), then the manifest write, then the trailing
`try: store_key(...) except: pass` whose outcome is `storeOk`. -/
def encryptChunkedTrace (order : List Nat) (storeOk : Bool) : List EncEvent :=
  order.map EncEvent.chunkWrite ++
    [EncEvent.commitCiphertext, EncEvent.writeManifest, EncEvent.vaultStore storeOk]

theorem getD_append_left {α : Type} (l1 l2 : List α) (d : α) :
    ∀ j, j < l1.length → (l1 ++ l2).getD j d = l1.getD j d := by
  induction l1 with
  | nil => intro j hj; simp at hj
  | cons b bs ih =>
    intro j hj
    cases j with
    | zero => rfl
    | succ m =>
      simp only [List.cons_append, List.getD_cons_succ]
      exact ih m (by simpa using hj)

theorem getD_append_right' {α : Type} (l1 l2 : List α) (d : α) :
    ∀ n, l1.length ≤ n → (l1 ++ l2).getD n d = l2.getD (n - l1.length) d := by
  induction l1 with
  | nil => intro n _; simp
  | cons b bs ih =>
    intro n hn
    cases n with
    | zero => simp at hn
    | succ m =>
      simp only [List.cons_append, List.getD_cons_succ, List.length_cons]
      rw [ih m (by simpa using hn)]
      congr 1
      omega

/-- C8 counterexample: the commit of the ciphertext strictly precedes the
vault store in the effect trace, and when the store fails (here: empty
master secret makes `store_key` raise, swallowed by `except: pass`),
`encrypt_file_chunked` still returns the committed file and manifest with
the vault database unchanged — the failure never surfaces. -/
theorem chunked_vault_after_commit :
    List.indexOf EncEvent.commitCiphertext (encryptChunkedTrace [0] false)
      < List.indexOf (EncEvent.vaultStore false) (encryptChunkedTrace [0] false)
    ∧ encrypt_file_chunked demoPrim [] [1] [2] 7 [10] [9] (List.replicate 16 0)
        "kid" "" 8 [0]
      = (encFile demoPrim [9] (List.replicate 16 0) 8 [10] [0],
         encManifest demoPrim [9] (List.replicate 16 0) 8 [10] "kid", []) := by
  constructor
  · decide
  · rfl

/-- C8 amended: in every run of `encrypt_file_chunked`, all ciphertext
chunk writes precede the commit, the commit precedes the manifest write and
the vault store, and a failing vault store (empty master) is swallowed:
the function still returns its committed outputs with the database
unchanged. -/
theorem chunked_vault_store_order (order : List Nat) (storeOk : Bool)
    (C : CryptoPrim) (db : VaultDB) (salt iv : List Byte) (now : Nat)
    (pt key base_nonce : List Byte) (key_id : String) (S : Nat) :
    (encryptChunkedTrace order storeOk).getD order.length EncEvent.commitCiphertext
        = EncEvent.commitCiphertext
    ∧ (encryptChunkedTrace order storeOk).getD (order.length + 1) EncEvent.commitCiphertext
        = EncEvent.writeManifest
    ∧ (encryptChunkedTrace order storeOk).getD (order.length + 2) EncEvent.commitCiphertext
        = EncEvent.vaultStore storeOk
    ∧ (∀ j, j < order.length →
        ∃ i, (encryptChunkedTrace order storeOk).getD j EncEvent.commitCiphertext
          = EncEvent.chunkWrite i)
    ∧ encrypt_file_chunked C db salt iv now pt key base_nonce key_id "" S order
      = (encFile C key base_nonce S pt order,
         encManifest C key base_nonce S pt key_id, db) := by
  have hlen : (order.map EncEvent.chunkWrite).length = order.length := by simp
  refine ⟨?_, ?_, ?_, ?_, ?_⟩
  · unfold encryptChunkedTrace
    rw [getD_append_right' _ _ _ order.length hlen.le, hlen]
    simp
  · unfold encryptChunkedTrace
    rw [getD_append_right' _ _ _ (order.length + 1) (by rw [hlen]; omega), hlen]
    simp
  · unfold encryptChunkedTrace
    rw [getD_append_right' _ _ _ (order.length + 2) (by rw [hlen]; omega), hlen]
    simp
  · intro j hj
    unfold encryptChunkedTrace
    rw [getD_append_left _ _ _ j (by rw [hlen]; omega)]
    refine ⟨order[j], ?_⟩
    rw [List.getD_eq_getElem?_getD, List.getElem?_map,
      List.getElem?_eq_getElem hj]
    rfl
  · unfold encrypt_file_chunked store_key
    rw [if_pos rfl]

/-- Witness for the amended C8 at `order = [0, 1]`, `storeOk = false`. -/
theorem chunked_vault_store_order_witness :
    (encryptChunkedTrace [0, 1] false).getD 2 EncEvent.commitCiphertext
        = EncEvent.commitCiphertext
    ∧ (encryptChunkedTrace [0, 1] false).getD 3 EncEvent.commitCiphertext
        = EncEvent.writeManifest
    ∧ (encryptChunkedTrace [0, 1] false).getD 4 EncEvent.commitCiphertext
        = EncEvent.vaultStore false
    ∧ (∀ j, j < ([0, 1] : List Nat).length →
        ∃ i, (encryptChunkedTrace [0, 1] false).getD j EncEvent.commitCiphertext
          = EncEvent.chunkWrite i)
    ∧ encrypt_file_chunked demoPrim [] [1] [2] 7 [10, 20, 30] [9]
        (List.replicate 16 0) "kid" "" 2 [0, 1]
      = (encFile demoPrim [9] (List.replicate 16 0) 2 [10, 20, 30] [0, 1],
         encManifest demoPrim [9] (List.replicate 16 0) 2 [10, 20, 30] "kid", []) :=
  chunked_vault_store_order [0, 1] false demoPrim [] [1] [2] 7 [10, 20, 30] [9]
    (List.replicate 16 0) "kid" 2

/-! ### Vault authentication on a wrong master secret (claim C9) -/

/-- A primitive instance whose abstract AES-CBC core returns, under any key
other than the correct KEK `[1]`, a block that happens to carry valid PKCS7
padding (16 bytes of value 16) — the situation a real cipher produces with
probability about 2^-8 per trial. -/
def c9Prim : CryptoPrim where
  ks := fun _ _ _ => 0
  sha256 := fun l => l
  hmacSha256 := fun k m => k ++ m
  kdf := fun m _ => if m = "a" then [1] else [2]
  aesCbcEncRaw := fun _ _ d => d
  aesCbcDecRaw := fun k _ d => if k = [1] then d else List.replicate 16 16
  gcmEnc := fun _ _ d => d
  gcmDec := fun _ _ d => some d

/-- the vault database after `store_key("k1", [42, 43], "ctr", "a")`. -/
def c9db : VaultDB :=
  [{ id := "k1", created_at := 0, salt := [3], iv := [4],
     wrapped_key := [42, 43] ++ List.replicate 14 14, mode := "ctr" }]

/-- C9 counterexample: after storing key [42, 43] under master "a", loading
with the wrong master "b" does not fail: the misdecrypted blob carries
valid PKCS7 padding, so `load_key` returns garbage bytes (here `[]`) as
though they were the key — there is no authentication beyond the padding
check. -/
theorem vault_wrong_master_returns_garbage :
    store_key c9Prim [] [3] [4] 0 "k1" [42, 43] "ctr" "a" = .ok c9db
    ∧ load_key c9Prim c9db "k1" "a" = .ok ([42, 43], "ctr")
    ∧ load_key c9Prim c9db "k1" "b" = .ok (([] : List Byte), "ctr")
    ∧ ("b" : String) ≠ "a"
    ∧ ([] : List Byte) ≠ [42, 43] := by
  refine ⟨rfl, rfl, rfl, ?_, ?_⟩ <;> decide

/-- C9 amended: `load_key` under any master performs no authentication
beyond PKCS7 unpadding of the misdecrypted blob: it fails (with the padding
error surfaced as the authentication failure) exactly when the padding is
invalid, and otherwise returns whatever bytes the unpadding produced. -/
theorem vault_wrong_master_padding_check (C : CryptoPrim) (db : VaultDB)
    (key_id master : String) (r : VaultRecord)
    (hmaster : master ≠ "") (hfind : vaultFind db key_id = some r) :
    (pkcs7Unpad (C.aesCbcDecRaw (C.kdf master r.salt) r.iv r.wrapped_key) = none →
      load_key C db key_id master = .error .badPadding)
    ∧ (∀ g, pkcs7Unpad (C.aesCbcDecRaw (C.kdf master r.salt) r.iv r.wrapped_key) = some g →
      load_key C db key_id master = .ok (g, r.mode)) := by
  unfold load_key aes_cbc_decrypt
  rw [if_neg hmaster, hfind]
  dsimp only
  constructor
  · intro h
    rw [h]
  · intro g h
    rw [h]

/-- Witness for the amended C9: the stored record of `c9db` loaded with the
wrong master "b". -/
theorem vault_wrong_master_padding_check_witness :
    (("b" : String) ≠ "" ∧ vaultFind c9db "k1"
      = some { id := "k1", created_at := 0, salt := [3], iv := [4],
               wrapped_key := [42, 43] ++ List.replicate 14 14, mode := "ctr" })
    ∧ ((pkcs7Unpad (c9Prim.aesCbcDecRaw (c9Prim.kdf "b" [3]) [4]
          ([42, 43] ++ List.replicate 14 14)) = none →
        load_key c9Prim c9db "k1" "b" = .error .badPadding)
      ∧ (∀ g, pkcs7Unpad (c9Prim.aesCbcDecRaw (c9Prim.kdf "b" [3]) [4]
          ([42, 43] ++ List.replicate 14 14)) = some g →
        load_key c9Prim c9db "k1" "b" = .ok (g, "ctr"))) :=
  ⟨⟨by decide, rfl⟩,
    vault_wrong_master_padding_check c9Prim c9db "k1" "b"
      { id := "k1", created_at := 0, salt := [3], iv := [4],
        wrapped_key := [42, 43] ++ List.replicate 14 14, mode := "ctr" }
      (by decide) rfl⟩

/-! ### Whole-file engine (`encryptor.py` / `decryptor.py`) -/

def ctrHeaderBytes : List Byte := [67, 84, 82]

def gcmHeaderBytes : List Byte := [71, 67, 77]

def cbcHeaderBytes : List Byte := [67, 66, 67]

structure WholeMeta where
  key_id : String
  src : String
  mode : String
  nonceOrIv : List Byte
  chunked : Bool
deriving DecidableEq

/-- Python's `str.lower()` on the mode strings used here (ASCII). -/
def pyLower (s : String) : String := ⟨s.data.map Char.toLower⟩

/-- The CTR body loop of `encrypt_stream`: `f.read(chunk_size_bytes)` slices
consecutive chunks and each chunk is encrypted by `_aes_ctr(key, nonce,
chunk)` — a freshly initialized CTR cipher under the same 16-byte nonce for
every chunk, so every chunk restarts the keystream at offset 0. -/
def encryptStreamCtrBody (C : CryptoPrim) (key nonce : List Byte) (S : Nat)
    (pt : List Byte) : List Byte :=
  ((List.range (chunkCountPy pt.length S)).map
    (fun i => aes_ctr C key nonce (ptChunk S pt i))).flatten

/-- Models `encrypt_stream(path, out_path, mode, key_id, key, master_secret,
chunk_size_bytes)`: write `MAGIC || nonce-or-iv || body` (temp-then-rename),
write the sidecar meta, then `store_key` (not guarded — a vault error
propagates, although the ciphertext was already committed). -/
def encrypt_stream (C : CryptoPrim) (db : VaultDB) (saltV ivV : List Byte)
    (now : Nat) (srcName mode key_id : String) (key : List Byte)
    (master_secret : String) (nonce : List Byte) (S : Nat) (pt : List Byte) :
    Except VaultErr (List Byte × WholeMeta × VaultDB) :=
  let result : List Byte × WholeMeta :=
    if pyLower mode = "ctr" then
      (ctrHeaderBytes ++ nonce ++ encryptStreamCtrBody C key nonce S pt,
       { key_id := key_id, src := srcName, mode := "CTR", nonceOrIv := nonce,
         chunked := false })
    else if pyLower mode = "gcm" then
      (gcmHeaderBytes ++ nonce ++ C.gcmEnc key nonce pt,
       { key_id := key_id, src := srcName, mode := "GCM", nonceOrIv := nonce,
         chunked := false })
    else
      (cbcHeaderBytes ++ nonce ++ C.aesCbcEncRaw key nonce (pkcs7Pad pt),
       { key_id := key_id, src := srcName, mode := "CBC", nonceOrIv := nonce,
         chunked := false })
  match store_key C db saltV ivV now key_id key mode master_secret with
  | .ok db2 => .ok (result.1, result.2, db2)
  | .error e => .error e

inductive WholeDecErr
  | emptyFile
  | unknownHeader
  | keyIdMissing
  | masterRequired
  | vault (e : VaultErr)
  | gcmTag
  | badPadding
deriving DecidableEq

/-- Models `decrypt_file(enc_path, out_path, key_id, master_secret)`: dispatch on
the 3-byte header; CTR reads a 16-byte nonce and decrypts the remainder in
a single `_aes_ctr` call (one keystream from offset 0); GCM reads a 12-byte
nonce and may fail on the tag; CBC reads a 16-byte IV, decrypts and
unpads. -/
def decrypt_file (C : CryptoPrim) (db : VaultDB) (encBytes : List Byte)
    (key_id metaKeyId : Option String) (master_secret : String) :
    Except WholeDecErr (List Byte) :=
  if encBytes = [] then .error .emptyFile
  else if encBytes.take 3 = ctrHeaderBytes ∨ encBytes.take 3 = gcmHeaderBytes ∨
      encBytes.take 3 = cbcHeaderBytes then
    match (match key_id with | some k => some k | none => metaKeyId) with
    | none => .error .keyIdMissing
    | some kid =>
      if master_secret = "" then .error .masterRequired
      else
        match load_key C db kid master_secret with
        | .error e => .error (.vault e)
        | .ok (key, _) =>
          if encBytes.take 3 = ctrHeaderBytes then
            .ok (aes_ctr C key ((encBytes.drop 3).take 16) (encBytes.drop 19))
          else if encBytes.take 3 = gcmHeaderBytes then
            match C.gcmDec key ((encBytes.drop 3).take 12) (encBytes.drop 15) with
            | none => .error .gcmTag
            | some pt => .ok pt
          else
            match pkcs7Unpad (C.aesCbcDecRaw key ((encBytes.drop 3).take 16)
                (encBytes.drop 19)) with
            | none => .error .badPadding
            | some pt => .ok pt
  else .error .unknownHeader

/-- Byte `p` of the streamed CTR body is the plaintext byte XORed with
keystream byte `p mod S`: every chunk reuses the keystream from offset 0. -/
theorem encryptStreamCtrBody_getElem? (C : CryptoPrim) (key nonce : List Byte)
    (S : Nat) (hS : 0 < S) :
    ∀ (n : Nat) (pt : List Byte), pt.length ≤ n → ∀ p,
      (encryptStreamCtrBody C key nonce S pt)[p]?
        = pt[p]?.map (fun b => b ^^^ C.ks key nonce (p % S)) := by
  intro n
  induction n with
  | zero =>
    intro pt hle p
    have h0 : pt = [] := List.eq_nil_of_length_eq_zero (by omega)
    subst h0
    simp [encryptStreamCtrBody, chunkCountPy_zero S hS]
  | succ m ih =>
    intro pt hle p
    rcases Nat.eq_zero_or_pos pt.length with hF | hF
    · have h0 : pt = [] := List.eq_nil_of_length_eq_zero hF
      subst h0
      simp [encryptStreamCtrBody, chunkCountPy_zero S hS]
    · have hcons : encryptStreamCtrBody C key nonce S pt
          = aes_ctr C key nonce (ptChunk S pt 0)
            ++ encryptStreamCtrBody C key nonce S (pt.drop S) := by
        unfold encryptStreamCtrBody
        rw [show (List.range (chunkCountPy pt.length S)).map
              (fun i => aes_ctr C key nonce (ptChunk S pt i))
            = (ptChunksList S pt).map (aes_ctr C key nonce) from by
          unfold ptChunksList
          rw [List.map_map]
          rfl]
        rw [ptChunksList_cons S hS pt hF]
        unfold ptChunksList
        rw [List.map_cons, List.flatten_cons, List.map_map]
        rfl
      rw [hcons]
      have hlen0 : (aes_ctr C key nonce (ptChunk S pt 0)).length = min S pt.length := by
        unfold aes_ctr
        rw [ctrXor_length, ptChunk_length]
        unfold chunkLen
        simp
      rcases Nat.lt_or_ge p (min S pt.length) with hp | hp
      · rw [List.getElem?_append, if_pos (by omega)]
        unfold aes_ctr
        rw [ctrXor_getElem?]
        have hchunk : (ptChunk S pt 0)[p]? = pt[p]? := by
          unfold ptChunk chunkLen
          simp only [Nat.zero_mul, List.drop_zero, Nat.sub_zero]
          exact List.getElem?_take_of_lt (by omega)
        rw [hchunk]
        have hz : 0 + p = p := by omega
        have hmp : p % S = p := Nat.mod_eq_of_lt (by omega)
        rw [hz, hmp]
      · rcases le_or_lt pt.length S with hls | hls
        · have hdropnil : pt.drop S = [] := List.drop_eq_nil_of_le hls
          rw [hdropnil]
          have hbody : encryptStreamCtrBody C key nonce S [] = [] := by
            simp [encryptStreamCtrBody, chunkCountPy_zero S hS]
          rw [hbody, List.append_nil]
          have hmin : min S pt.length = pt.length := Nat.min_eq_right hls
          rw [List.getElem?_eq_none (by omega), List.getElem?_eq_none (by omega)]
          rfl
        · have hmin : min S pt.length = S := Nat.min_eq_left (by omega)
          rw [List.getElem?_append, if_neg (by omega), hlen0, hmin]
          rw [ih (pt.drop S) (by simp; omega) (p - S)]
          rw [List.getElem?_drop]
          have hps : S + (p - S) = p := by omega
          rw [hps]
          have hmod : (p - S) % S = p % S := by
            conv_rhs => rw [show p = (p - S) + S from by omega]
            rw [Nat.add_mod_right]
          rw [hmod]

theorem xor_xor_self_left (a k : Nat) : (a ^^^ k) ^^^ a = k := by
  rw [Nat.xor_comm a k, Nat.xor_assoc, Nat.xor_self, Nat.xor_zero]

/-- C4: in whole-file CTR mode, every successive chunk of the stream is
encrypted by a freshly initialized AES-CTR cipher under the identical
nonce, so all blocks are XORed with the same keystream:
`ct[i*S+r] XOR pt[i*S+r]` equals `ct[r] XOR pt[r]` for every block `i`. -/
theorem ctr_stream_keystream_reuse (C : CryptoPrim) (key nonce : List Byte)
    (S : Nat) (pt : List Byte) (i r : Nat)
    (hS : 0 < S) (hlong : S < pt.length) (hr : r < S) (hir : i * S + r < pt.length) :
    (encryptStreamCtrBody C key nonce S pt).getD (i * S + r) 0
        ^^^ pt.getD (i * S + r) 0
      = (encryptStreamCtrBody C key nonce S pt).getD r 0 ^^^ pt.getD r 0 := by
  have hidx := encryptStreamCtrBody_getElem? C key nonce S hS pt.length pt (Nat.le_refl _)
  have h1 := hidx (i * S + r)
  have h2 := hidx r
  have ha : pt[i * S + r]? = some pt[i * S + r] := List.getElem?_eq_getElem hir
  have hb : pt[r]? = some pt[r] := List.getElem?_eq_getElem (by omega)
  rw [ha] at h1
  rw [hb] at h2
  have hm1 : (i * S + r) % S = r := by
    rw [Nat.mul_comm i S] at *
    rw [Nat.mul_add_mod]
    exact Nat.mod_eq_of_lt hr
  have hm2 : r % S = r := Nat.mod_eq_of_lt hr
  rw [hm1] at h1
  rw [hm2] at h2
  simp only [Option.map_some'] at h1 h2
  rw [List.getD_eq_getElem?_getD, List.getD_eq_getElem?_getD, h1, ha,
    List.getD_eq_getElem?_getD, List.getD_eq_getElem?_getD, h2, hb]
  simp only [Option.getD_some]
  rw [xor_xor_self_left, xor_xor_self_left]

/-- Witness for C4: S = 2, a 5-byte plaintext, block 1 against block 0. -/
theorem ctr_stream_keystream_reuse_witness :
    ((0:Nat) < 2 ∧ 2 < ([1, 2, 3, 4, 5] : List Byte).length ∧ (1:Nat) < 2 ∧
      1 * 2 + 1 < ([1, 2, 3, 4, 5] : List Byte).length) ∧
    (encryptStreamCtrBody demoPrim [9] (List.replicate 16 0) 2 [1, 2, 3, 4, 5]).getD
        (1 * 2 + 1) 0 ^^^ ([1, 2, 3, 4, 5] : List Byte).getD (1 * 2 + 1) 0
      = (encryptStreamCtrBody demoPrim [9] (List.replicate 16 0) 2 [1, 2, 3, 4, 5]).getD 1 0
        ^^^ ([1, 2, 3, 4, 5] : List Byte).getD 1 0 :=
  ⟨⟨by decide, by decide, by decide, by decide⟩,
    ctr_stream_keystream_reuse demoPrim [9] (List.replicate 16 0) 2 [1, 2, 3, 4, 5] 1 1
      (by decide) (by decide) (by decide) (by decide)⟩

/-! ### Whole-file CTR round trip on large inputs (claim C3) -/

/-- A primitive whose CTR keystream distinguishes stream offsets 0 and
2^20 (any real AES keystream does so with overwhelming probability). -/
def c3Prim : CryptoPrim where
  ks := fun _ _ i => i / 1048576 % 256
  sha256 := fun l => l
  hmacSha256 := fun k m => k ++ m
  kdf := fun m s => m.length :: s
  aesCbcEncRaw := fun _ _ d => d
  aesCbcDecRaw := fun _ _ d => d
  gcmEnc := fun _ _ d => d
  gcmDec := fun _ _ d => some d

/-- a file one byte longer than the 1 MiB streaming read size. -/
def c3pt : List Byte := List.replicate 1048577 0

/-- C3 at the failing input: for a (2^20 + 1)-byte file in CTR mode with the
default `chunk_size_bytes = 1 MiB`, `encrypt_stream` restarts the keystream
for the second chunk while `decrypt_file` decrypts the whole body with a
single keystream, so the round trip does not return the original bytes. -/
theorem ctr_large_file_roundtrip_fails :
    (encrypt_stream c3Prim [] [3] [4] 0 "f" "ctr" "kid" [9] "pw"
        (List.replicate 16 0) 1048576 c3pt).toOption.map
      (fun r => decrypt_file c3Prim r.2.2 r.1 (some "kid") none "pw")
      ≠ some (.ok c3pt) := by
  intro hcontra
  have henc : encrypt_stream c3Prim [] [3] [4] 0 "f" "ctr" "kid" [9] "pw"
      (List.replicate 16 0) 1048576 c3pt
      = .ok (ctrHeaderBytes ++ List.replicate 16 0
              ++ encryptStreamCtrBody c3Prim [9] (List.replicate 16 0) 1048576 c3pt,
            { key_id := "kid"
              src := "f"
              mode := "CTR"
              nonceOrIv := List.replicate 16 0
              chunked := false },
            vaultUpsert []
              { id := "kid"
                created_at := 0
                salt := [3]
                iv := [4]
                wrapped_key := aes_cbc_encrypt c3Prim (c3Prim.kdf "pw" [3]) [4] [9]
                mode := "ctr" }) := by
    unfold encrypt_stream store_key
    rw [if_pos (show (pyLower "ctr" = "ctr") from by decide), if_neg (by decide)]
  have hcomp : (encrypt_stream c3Prim [] [3] [4] 0 "f" "ctr" "kid" [9] "pw"
        (List.replicate 16 0) 1048576 c3pt).toOption.map
      (fun r => decrypt_file c3Prim r.2.2 r.1 (some "kid") none "pw")
      = some (decrypt_file c3Prim
          (vaultUpsert []
            { id := "kid"
              created_at := 0
              salt := [3]
              iv := [4]
              wrapped_key := aes_cbc_encrypt c3Prim (c3Prim.kdf "pw" [3]) [4] [9]
              mode := "ctr" })
          (ctrHeaderBytes ++ List.replicate 16 0
            ++ encryptStreamCtrBody c3Prim [9] (List.replicate 16 0) 1048576 c3pt)
          (some "kid") none "pw") := by
    rw [henc]
    rfl
  have hdec : decrypt_file c3Prim
      (vaultUpsert []
        { id := "kid"
          created_at := 0
          salt := [3]
          iv := [4]
          wrapped_key := aes_cbc_encrypt c3Prim (c3Prim.kdf "pw" [3]) [4] [9]
          mode := "ctr" })
      (ctrHeaderBytes ++ List.replicate 16 0
        ++ encryptStreamCtrBody c3Prim [9] (List.replicate 16 0) 1048576 c3pt)
      (some "kid") none "pw"
      = .ok (ctrXor (c3Prim.ks [9] (List.replicate 16 0)) 0
          (encryptStreamCtrBody c3Prim [9] (List.replicate 16 0) 1048576 c3pt)) := by
    have hne : ¬(ctrHeaderBytes ++ List.replicate 16 0
        ++ encryptStreamCtrBody c3Prim [9] (List.replicate 16 0) 1048576 c3pt = []) := by
      simp [ctrHeaderBytes]
    have htake3 : (ctrHeaderBytes ++ List.replicate 16 0
        ++ encryptStreamCtrBody c3Prim [9] (List.replicate 16 0) 1048576 c3pt).take 3
        = ctrHeaderBytes := by
      rw [List.append_assoc]
      exact take_eq_of_length_append _ _ 3 rfl
    have hdrop3 : (ctrHeaderBytes ++ List.replicate 16 0
        ++ encryptStreamCtrBody c3Prim [9] (List.replicate 16 0) 1048576 c3pt).drop 3
        = List.replicate 16 0
          ++ encryptStreamCtrBody c3Prim [9] (List.replicate 16 0) 1048576 c3pt := by
      rw [List.append_assoc]
      exact drop_eq_of_length_append _ _ 3 rfl
    have htake16 : (List.replicate 16 (0 : Byte)
        ++ encryptStreamCtrBody c3Prim [9] (List.replicate 16 0) 1048576 c3pt).take 16
        = List.replicate 16 0 :=
      take_eq_of_length_append _ _ 16 (by simp)
    have hdrop19 : (ctrHeaderBytes ++ List.replicate 16 0
        ++ encryptStreamCtrBody c3Prim [9] (List.replicate 16 0) 1048576 c3pt).drop 19
        = encryptStreamCtrBody c3Prim [9] (List.replicate 16 0) 1048576 c3pt :=
      drop_eq_of_length_append _ _ 19 (by simp [ctrHeaderBytes])
    have hload2 : load_key c3Prim
        (vaultUpsert []
          { id := "kid"
            created_at := 0
            salt := [3]
            iv := [4]
            wrapped_key := aes_cbc_encrypt c3Prim (c3Prim.kdf "pw" [3]) [4] [9]
            mode := "ctr" })
        "kid" "pw" = .ok ([9], "ctr") := rfl
    unfold decrypt_file
    rw [if_neg hne, if_pos (Or.inl htake3)]
    dsimp only
    rw [if_neg (show ¬(("pw" : String) = "") from by decide), hload2]
    dsimp only
    rw [if_pos htake3, hdrop3, htake16, hdrop19]
    rfl
  rw [hcomp, hdec] at hcontra
  have hX : ctrXor (c3Prim.ks [9] (List.replicate 16 0)) 0
      (encryptStreamCtrBody c3Prim [9] (List.replicate 16 0) 1048576 c3pt) = c3pt := by
    have h1 := Option.some.inj hcontra
    exact Except.ok.inj h1
  have hidx := congrArg (fun l => l[1048576]?) hX
  simp only at hidx
  rw [ctrXor_getElem?] at hidx
  rw [encryptStreamCtrBody_getElem? c3Prim [9] (List.replicate 16 0) 1048576 (by omega)
      c3pt.length c3pt (Nat.le_refl _) 1048576] at hidx
  have hrep : c3pt[1048576]? = some 0 := by
    unfold c3pt
    exact List.getElem?_replicate_of_lt (by omega)
  rw [hrep] at hidx
  simp only [Option.map_some'] at hidx
  have hfinal := Option.some.inj hidx
  rw [show (1048576 : Nat) % 1048576 = 0 from by omega,
    show (0 : Nat) + 1048576 = 1048576 from by omega] at hfinal
  have : ((0 : Nat) ^^^ c3Prim.ks [9] (List.replicate 16 0) 0)
      ^^^ c3Prim.ks [9] (List.replicate 16 0) 1048576 = 1 := by decide
  rw [this] at hfinal
  exact absurd hfinal (by decide)

/-! ### Scheduler (`scheduler_plus.py`, claim C10) -/

structure SchedFile where
  path : String
  size : Nat
  suffix : String
deriving DecidableEq

/-- Models `Task(prio, path, size, suffix)`; `prio` is predicted seconds in the
heavy branch and the byte size in the small-batch branch, so it is a
rational here. -/
structure SchedTask where
  priority : ℚ
  path : String
  size : Nat
  suffix : String
deriving DecidableEq

/-- stable insertion of Python's Timsort, keyed by `size` (ties keep input
order). -/
def sortBySizeInsert (t : SchedTask) : List SchedTask → List SchedTask
  | [] => [t]
  | u :: us => if u.size ≤ t.size then u :: sortBySizeInsert t us else t :: u :: us

/-- Models `raw_tasks.sort(key=lambda x: x.size)`: stable ascending sort by size. -/
def sortBySize : List SchedTask → List SchedTask
  | [] => []
  | t :: ts => sortBySizeInsert t (sortBySize ts)

def sortByPriorityInsert (t : SchedTask) : List SchedTask → List SchedTask
  | [] => [t]
  | u :: us => if u.priority ≤ t.priority then u :: sortByPriorityInsert t us else t :: u :: us

/-- the `heapq` drain of the heavy branch: tasks in ascending `prio`. -/
def sortByPriority : List SchedTask → List SchedTask
  | [] => []
  | t :: ts => sortByPriorityInsert t (sortByPriority ts)

/-- Models `SchedulerPlus.plan(files)`: empty input gives an empty plan; if the
total size is under 10 MiB, build tasks with `prio = size` and sort by
size (shortest-job-first), never consulting the cost model; otherwise ask
`predict` for each file's priority and drain a heap in ascending
priority. -/
def SchedulerPlus_plan (predict : Nat → String → ℚ) (files : List SchedFile) :
    List SchedTask :=
  if files = [] then []
  else if (files.map (fun p => p.size)).sum < 10 * 1024 * 1024 then
    sortBySize (files.map (fun p =>
      { priority := (p.size : ℚ), path := p.path, size := p.size, suffix := p.suffix }))
  else
    sortByPriority (files.map (fun p =>
      { priority := predict p.size p.suffix, path := p.path, size := p.size,
        suffix := p.suffix }))

theorem sortBySizeInsert_perm (t : SchedTask) (l : List SchedTask) :
    (sortBySizeInsert t l).Perm (t :: l) := by
  induction l with
  | nil => exact List.Perm.refl _
  | cons u us ih =>
    unfold sortBySizeInsert
    by_cases h : u.size ≤ t.size
    · rw [if_pos h]
      exact (ih.cons u).trans (List.Perm.swap t u us)
    · rw [if_neg h]

theorem sortBySize_perm (l : List SchedTask) : (sortBySize l).Perm l := by
  induction l with
  | nil => exact List.Perm.refl _
  | cons t ts ih =>
    unfold sortBySize
    exact (sortBySizeInsert_perm t (sortBySize ts)).trans (ih.cons t)

theorem sortBySizeInsert_sorted (t : SchedTask) (l : List SchedTask)
    (h : List.Pairwise (fun a b => a.size ≤ b.size) l) :
    List.Pairwise (fun a b => a.size ≤ b.size) (sortBySizeInsert t l) := by
  induction l with
  | nil => simp [sortBySizeInsert]
  | cons u us ih =>
    unfold sortBySizeInsert
    rcases List.pairwise_cons.mp h with ⟨hu, hus⟩
    by_cases hc : u.size ≤ t.size
    · rw [if_pos hc]
      refine List.pairwise_cons.mpr ⟨?_, ih hus⟩
      intro b hb
      have hmem := (sortBySizeInsert_perm t us).mem_iff.mp hb
      rcases List.mem_cons.mp hmem with hbt | hbus
      · rw [hbt]; exact hc
      · exact hu b hbus
    · rw [if_neg hc]
      refine List.pairwise_cons.mpr ⟨?_, h⟩
      intro b hb
      rcases List.mem_cons.mp hb with hbu | hbus
      · rw [hbu]; omega
      · have := hu b hbus; omega

theorem sortBySize_sorted (l : List SchedTask) :
    List.Pairwise (fun a b => a.size ≤ b.size) (sortBySize l) := by
  induction l with
  | nil => simp [sortBySize]
  | cons t ts ih => exact sortBySizeInsert_sorted t (sortBySize ts) ih

/-- C10: for a non-empty batch totalling under 10 MiB, `plan` ignores the
cost predictor entirely (any two predictors give the identical plan) and
returns exactly the input files as tasks, sorted by ascending size. -/
theorem plan_sjf_gate (predict1 predict2 : Nat → String → ℚ) (files : List SchedFile)
    (hne : files ≠ [])
    (hsum : (files.map (fun p => p.size)).sum < 10 * 1024 * 1024) :
    SchedulerPlus_plan predict1 files = SchedulerPlus_plan predict2 files
    ∧ (SchedulerPlus_plan predict1 files).Perm (files.map (fun p =>
        { priority := (p.size : ℚ), path := p.path, size := p.size, suffix := p.suffix }))
    ∧ List.Pairwise (fun a b => a.size ≤ b.size) (SchedulerPlus_plan predict1 files) := by
  unfold SchedulerPlus_plan
  simp only [if_neg hne, if_pos hsum]
  exact ⟨trivial, sortBySize_perm _, sortBySize_sorted _⟩

/-- Witness for C10: three small files out of order come back sorted by
ascending size, independent of the predictor. -/
theorem plan_sjf_gate_witness :
    (([⟨"a", 300, ".txt"⟩, ⟨"b", 100, ".bin"⟩, ⟨"c", 200, ".txt"⟩] : List SchedFile) ≠ []
      ∧ (([⟨"a", 300, ".txt"⟩, ⟨"b", 100, ".bin"⟩, ⟨"c", 200, ".txt"⟩]
          : List SchedFile).map (fun p => p.size)).sum < 10 * 1024 * 1024)
    ∧ (SchedulerPlus_plan (fun _ _ => 0)
          [⟨"a", 300, ".txt"⟩, ⟨"b", 100, ".bin"⟩, ⟨"c", 200, ".txt"⟩]
        = SchedulerPlus_plan (fun s _ => (s : ℚ) * 5)
          [⟨"a", 300, ".txt"⟩, ⟨"b", 100, ".bin"⟩, ⟨"c", 200, ".txt"⟩]
      ∧ (SchedulerPlus_plan (fun _ _ => 0)
          [⟨"a", 300, ".txt"⟩, ⟨"b", 100, ".bin"⟩, ⟨"c", 200, ".txt"⟩]).Perm
          (([⟨"a", 300, ".txt"⟩, ⟨"b", 100, ".bin"⟩, ⟨"c", 200, ".txt"⟩]
            : List SchedFile).map (fun p =>
              { priority := (p.size : ℚ), path := p.path, size := p.size,
                suffix := p.suffix }))
      ∧ List.Pairwise (fun a b => a.size ≤ b.size)
          (SchedulerPlus_plan (fun _ _ => 0)
            [⟨"a", 300, ".txt"⟩, ⟨"b", 100, ".bin"⟩, ⟨"c", 200, ".txt"⟩])) :=
  ⟨⟨by decide, by decide⟩,
    plan_sjf_gate (fun _ _ => 0) (fun s _ => (s : ℚ) * 5)
      [⟨"a", 300, ".txt"⟩, ⟨"b", 100, ".bin"⟩, ⟨"c", 200, ".txt"⟩]
      (by decide) (by decide)⟩

end AFEcrypt
